import Mathlib

/-!
# Verification of the tracking.js Viola–Jones detector core

A shallow embedding of `src/detection/ViolaJones.ts`, `src/math/TrackingMath.ts`
and the `DisjointSet` utility, with theorems checking the natural-language
specification against the code.

Modelling conventions:
- JavaScript numbers are modelled as exact rationals `ℚ`; IEEE-754 rounding is
  out of scope.  `Math.sqrt` is an opaque parameter `sq : ℚ → ℚ` so that every
  statement holds for any square-root implementation.
- The JS `x | 0` coercion is modelled by `toInt32`, truncation toward zero,
  which agrees with JS for `|x| < 2^31`.
- Typed-array reads are modelled with `getD`: an out-of-range read yields a
  default value rather than JS `undefined`/`NaN`; every claim about numeric
  results is stated for in-range accesses.
- The integral-image builder is an external collaborator (spec §1, §6): the
  four summed-area tables are taken as inputs.
-/

namespace Tracking

/-- JS `x | 0` for a rational: truncation toward zero (exact for `|x| < 2^31`,
which covers every in-range image/block size). -/
def toInt32 (q : ℚ) : ℤ :=
  if q < 0 then -(⌊-q⌋) else ⌊q⌋

/-- Read of an `Int32Array` at a (possibly computed, hence integer) index. -/
def readZ (a : Array ℤ) (idx : ℤ) : ℤ :=
  if 0 ≤ idx then a.getD idx.toNat 0 else 0

/-- `tracking.Math.intersectRect` from `src/math/TrackingMath.ts`:
`!(x2 > x1 || x3 < x0 || y2 > y1 || y3 < y0)`. -/
def intersectRect (x0 y0 x1 y1 x2 y2 x3 y3 : ℚ) : Bool :=
  !(x2 > x1 || x3 < x0 || y2 > y1 || y3 < y0)

/-- The rectangle record `{x, y, width, height, total}` used by the detector. -/
structure Rect where
  x : ℚ
  y : ℚ
  width : ℚ
  height : ℚ
  total : ℕ
  deriving DecidableEq, Repr

/-- `ViolaJones.REGIONS_OVERLAP` (0.5). -/
def REGIONS_OVERLAP : ℚ := 1/2

/-- The per-pair guard of `mergeRectangles_`: bounding boxes intersect and both
(nonstandard) overlap ratios reach `REGIONS_OVERLAP`.  This is the exact
condition under which `mergeRectangles_` calls `disjointSet.union(i, j)`. -/
def mergeCond (r1 r2 : Rect) : Bool :=
  intersectRect r1.x r1.y (r1.x + r1.width) (r1.y + r1.height)
      r2.x r2.y (r2.x + r2.width) (r2.y + r2.height) &&
    (let x1 := max r1.x r2.x
     let y1 := max r1.y r2.y
     let x2 := min (r1.x + r1.width) (r2.x + r2.width)
     let y2 := min (r1.y + r1.height) (r2.y + r2.height)
     let overlap := (x1 - x2) * (y1 - y2)
     let area1 := r1.width * r1.height
     let area2 := r2.width * r2.height
     decide (overlap / (area1 * (area1 / area2)) ≥ REGIONS_OVERLAP) &&
       decide (overlap / (area2 * (area1 / area2)) ≥ REGIONS_OVERLAP))

/-- The intersection area of the two axis-aligned boxes (width × height of the
clipped box), as the claim describes the code's `overlap` value. -/
def interArea (r1 r2 : Rect) : ℚ :=
  (min (r1.x + r1.width) (r2.x + r2.width) - max r1.x r2.x) *
    (min (r1.y + r1.height) (r2.y + r2.height) - max r1.y r2.y)

/-- Inclusive axis-aligned bounding-box intersection, as the claim states it
(boundary touching counts). -/
def boxesIntersect (r1 r2 : Rect) : Prop :=
  r2.x ≤ r1.x + r1.width ∧ r1.x ≤ r2.x + r2.width ∧
    r2.y ≤ r1.y + r1.height ∧ r1.y ≤ r2.y + r2.height

instance (r1 r2 : Rect) : Decidable (boxesIntersect r1 r2) := by
  unfold boxesIntersect; infer_instance

/-! ## DisjointSet (`src/utils/DisjointSet.ts`)

The parent table is a `Uint32Array`; we model it as `Array ℕ`.  The source
`find` recurses along parent pointers; a reachable parent array is acyclic, so
`p.size` steps of fuel always suffice (`findD_spec` below). -/

namespace DisjointSet

/-- The constructor: `parent[i] = i` for every `i < length`. -/
def create (length : ℕ) : Array ℕ :=
  Array.range length

/-- One parent-pointer read, `this.parent[i]` (an index out of range behaves
as a fixpoint; the source is only ever called in range). -/
def step (p : Array ℕ) (i : ℕ) : ℕ :=
  p.getD i i

/-- `find(i)` with path compression, fuel-indexed:
`if (parent[i] === i) return i; else return (parent[i] = find(parent[i]))`.
Returns the representative and the compressed parent table. -/
def findD (p : Array ℕ) : ℕ → ℕ → ℕ × Array ℕ
  | 0, i => (i, p)
  | fuel + 1, i =>
    let pi := step p i
    if pi = i then (i, p)
    else
      let rp := findD p fuel pi
      (rp.1, rp.2.setD i rp.1)

/-- `find` with the fuel that always suffices on reachable states. -/
def find (p : Array ℕ) (i : ℕ) : ℕ × Array ℕ :=
  findD p p.size i

/-- `union(i, j)`: `parent[find(i)] = find(j)` (the second `find` runs on the
state already compressed by the first). -/
def union (p : Array ℕ) (i j : ℕ) : Array ℕ :=
  let fi := find p i
  let fj := find fi.2 j
  fj.2.setD fi.1 fj.1

/-- A set representative: a parent-pointer fixpoint. -/
def isRoot (p : Array ℕ) (x : ℕ) : Prop :=
  step p x = x

/-- The canonical representative: `p.size` parent steps always reach the
root on a well-formed state (`exists_root_step`). -/
def rootN (p : Array ℕ) (x : ℕ) : ℕ :=
  (step p)^[p.size] x

/-- No nontrivial parent cycles: any cycle is a root's self-loop. -/
def Acyclic (p : Array ℕ) : Prop :=
  ∀ x k, 0 < k → (step p)^[k] x = x → step p x = x

/-- The well-formedness invariant of a parent table for `n` elements. -/
def Inv (n : ℕ) (p : Array ℕ) : Prop :=
  p.size = n ∧ (∀ x, x < n → step p x < n) ∧ Acyclic p

/-- A finite sequence of `union` calls. -/
def applyUnions (ps : List (ℕ × ℕ)) (p : Array ℕ) : Array ℕ :=
  ps.foldl (fun q pr => union q pr.1 pr.2) p

/-- A finite sequence of `find` calls (keeping only the mutated state). -/
def applyFinds (ks : List ℕ) (p : Array ℕ) : Array ℕ :=
  ks.foldl (fun q k => (find q k).2) p

/-- The parent tables reachable from the constructor through `union` and
`find` calls with in-range indices. -/
inductive Reachable (n : ℕ) : Array ℕ → Prop where
  | base : Reachable n (create n)
  | unionStep (p : Array ℕ) (i j : ℕ) :
      Reachable n p → i < n → j < n → Reachable n (union p i j)
  | findStep (p : Array ℕ) (i : ℕ) :
      Reachable n p → i < n → Reachable n (find p i).2

end DisjointSet

/-! ## Rectangle merger (`ViolaJones.mergeRectangles_`) -/

/-- Placeholder for an (unreachable) out-of-range list read. -/
def defaultRect : Rect := ⟨0, 0, 0, 0, 0⟩

/-- The double loop of `mergeRectangles_`: for every ordered pair `(i, j)`,
union the pair's indices when `mergeCond` holds. -/
def unionPhase (rects : List Rect) (p : Array ℕ) : Array ℕ :=
  (List.range rects.length).foldl
    (fun p i =>
      (List.range rects.length).foldl
        (fun p j =>
          if mergeCond (rects.getD i defaultRect) (rects.getD j defaultRect) then
            DisjointSet.union p i j
          else p)
        p)
    p

/-- The grouping loop `for k: rep = find(k)`: collects the `(k, rep)`
assignments in order, threading the (path-compressing) state. -/
def findAll (p : Array ℕ) (n : ℕ) : List (ℕ × ℕ) × Array ℕ :=
  (List.range n).foldl
    (fun acc k =>
      let rp := DisjointSet.find acc.2 k
      (acc.1 ++ [(k, rp.1)], rp.2))
    ([], p)

/-- Group accumulation and averaging.  The JS `map` is keyed by representative
index; `Object.keys` enumerates those integer keys in ascending order, and each
group accumulates its members in `k` order. -/
def groupOut (rects : List Rect) (pairs : List (ℕ × ℕ)) : List Rect :=
  ((List.range rects.length).filter fun rep => pairs.any fun kr => kr.2 = rep).map
    fun rep =>
      let ks := (pairs.filter fun kr => kr.2 = rep).map Prod.fst
      let ct := ks.length
      let sw := (ks.map fun k => (rects.getD k defaultRect).width).sum
      let sh := (ks.map fun k => (rects.getD k defaultRect).height).sum
      let sx := (ks.map fun k => (rects.getD k defaultRect).x).sum
      let sy := (ks.map fun k => (rects.getD k defaultRect).y).sum
      ⟨(toInt32 (sx / (ct : ℚ) + 1/2) : ℤ), (toInt32 (sy / (ct : ℚ) + 1/2) : ℤ),
        (toInt32 (sw / (ct : ℚ) + 1/2) : ℤ), (toInt32 (sh / (ct : ℚ) + 1/2) : ℤ), ct⟩

/-- `ViolaJones.mergeRectangles_`. -/
def mergeRectangles_ (rects : List Rect) : List Rect :=
  let p := DisjointSet.create rects.length
  let p1 := unionPhase rects p
  groupOut rects (findAll p1 rects.length).1

/-! ## Cascade stage evaluator (`ViolaJones.evalStages_`)

The evaluator's window context: the three integral images (built by the
external integral-image builder), the window position `(i, j)`, the image
width, the block size and the current scale.  `sq` is `Math.sqrt`. -/

structure EvalCtx where
  integralImage : Array ℤ
  integralImageSquare : Array ℤ
  tiltedIntegralImage : Array ℤ
  i : ℤ
  j : ℤ
  width : ℕ
  blockWidth : ℤ
  blockHeight : ℤ
  scale : ℚ
  sq : ℚ → ℚ

/-- `inverseArea = 1.0 / (blockWidth * blockHeight)`. -/
def inverseArea (c : EvalCtx) : ℚ :=
  1 / ((c.blockWidth : ℚ) * (c.blockHeight : ℚ))

/-- The window's four-corner sum lookup indices and mean. -/
def windowMean (c : EvalCtx) : ℚ :=
  let wbA := c.i * (c.width : ℤ) + c.j
  let wbB := wbA + c.blockWidth
  let wbD := wbA + c.blockHeight * (c.width : ℤ)
  let wbC := wbD + c.blockWidth
  ((readZ c.integralImage wbA - readZ c.integralImage wbB - readZ c.integralImage wbD +
      readZ c.integralImage wbC : ℤ) : ℚ) * inverseArea c

/-- `variance = (squared-sum lookup) * inverseArea - mean * mean`. -/
def windowVariance (c : EvalCtx) : ℚ :=
  let wbA := c.i * (c.width : ℤ) + c.j
  let wbB := wbA + c.blockWidth
  let wbD := wbA + c.blockHeight * (c.width : ℤ)
  let wbC := wbD + c.blockWidth
  ((readZ c.integralImageSquare wbA - readZ c.integralImageSquare wbB -
      readZ c.integralImageSquare wbD + readZ c.integralImageSquare wbC : ℤ) : ℚ) *
      inverseArea c -
    windowMean c * windowMean c

/-- `standardDeviation = 1; if (variance > 0) standardDeviation = sqrt(variance)`. -/
def standardDeviation (c : EvalCtx) : ℚ :=
  if windowVariance c > 0 then c.sq (windowVariance c) else 1

/-- One Haar rectangle's weighted sum contribution: scaled/rounded rectangle
coordinates, then the tilted (RSAT) or upright (SAT) four-corner formula. -/
def rectVal (c : EvalCtx) (tilted rx ry rw rh rweight : ℚ) : ℚ :=
  let rectLeft := toInt32 ((c.j : ℚ) + rx * c.scale + 1/2)
  let rectTop := toInt32 ((c.i : ℚ) + ry * c.scale + 1/2)
  let rectWidth := toInt32 (rw * c.scale + 1/2)
  let rectHeight := toInt32 (rh * c.scale + 1/2)
  if tilted ≠ 0 then
    let w1 := rectLeft - rectHeight + rectWidth + (rectTop + rectWidth + rectHeight - 1) * (c.width : ℤ)
    let w2 := rectLeft + (rectTop - 1) * (c.width : ℤ)
    let w3 := rectLeft - rectHeight + (rectTop + rectHeight - 1) * (c.width : ℤ)
    let w4 := rectLeft + rectWidth + (rectTop + rectWidth - 1) * (c.width : ℤ)
    ((readZ c.tiltedIntegralImage w1 + readZ c.tiltedIntegralImage w2 -
        readZ c.tiltedIntegralImage w3 - readZ c.tiltedIntegralImage w4 : ℤ) : ℚ) * rweight
  else
    let w1 := rectTop * (c.width : ℤ) + rectLeft
    let w2 := w1 + rectWidth
    let w3 := w1 + rectHeight * (c.width : ℤ)
    let w4 := w3 + rectWidth
    ((readZ c.integralImage w1 - readZ c.integralImage w2 - readZ c.integralImage w3 +
        readZ c.integralImage w4 : ℤ) : ℚ) * rweight

/-- The inner rectangle loop of a node: reads `rectsLength` 5-value rectangle
records from the cursor, accumulating `rectsSum`.  Returns the sum and the
advanced cursor. -/
def readRects (data : Array ℚ) (c : EvalCtx) (tilted : ℚ) : ℕ → ℕ → ℚ → ℚ × ℕ
  | w, 0, acc => (acc, w)
  | w, k + 1, acc =>
    let v := rectVal c tilted (data.getD w 0) (data.getD (w + 1) 0) (data.getD (w + 2) 0)
      (data.getD (w + 3) 0) (data.getD (w + 4) 0)
    readRects data c tilted (w + 5) k (acc + v)

/-- The node loop of a stage (`while (nodeLength--)`): reads `tilted`,
`rectsLength`, the rectangles, then `nodeThreshold`, `nodeLeft`, `nodeRight`,
and adds `nodeLeft` when `rectsSum * inverseArea < nodeThreshold * std`, else
`nodeRight`. -/
def readNodes (data : Array ℚ) (c : EvalCtx) (invArea std : ℚ) : ℕ → ℕ → ℚ → ℚ × ℕ
  | w, 0, acc => (acc, w)
  | w, k + 1, acc =>
    let tilted := data.getD w 0
    let rcount := (data.getD (w + 1) 0).ceil.toNat
    let rs := readRects data c tilted (w + 2) rcount 0
    let nodeThreshold := data.getD rs.2 0
    let nodeLeft := data.getD (rs.2 + 1) 0
    let nodeRight := data.getD (rs.2 + 2) 0
    let contrib := if rs.1 * invArea < nodeThreshold * std then nodeLeft else nodeRight
    readNodes data c invArea std (rs.2 + 3) k (acc + contrib)

/-- The stage loop `for (let w = 2; w < length; )`: read the stage threshold
and node count, run the nodes, reject as soon as `stageSum < stageThreshold`.
Fuel-indexed; every iteration advances the cursor by at least 2, so
`data.size` fuel always suffices. -/
def stagesLoop (data : Array ℚ) (c : EvalCtx) (invArea std : ℚ) : ℕ → ℕ → Bool
  | 0, _ => true
  | fuel + 1, w =>
    if w < data.size then
      let stageThreshold := data.getD w 0
      let nodeCount := (data.getD (w + 1) 0).floor.toNat
      let sn := readNodes data c invArea std (w + 2) nodeCount 0
      if sn.1 < stageThreshold then false
      else stagesLoop data c invArea std fuel sn.2
    else true

/-- `ViolaJones.evalStages_`. -/
def evalStages_ (data : Array ℚ) (c : EvalCtx) : Bool :=
  stagesLoop data c (inverseArea c) (standardDeviation c) data.size 2

/-! ## Structured cascade decoding (spec §3 schema) and the spec-side
evaluator, written from the claim's words, to be compared with
`evalStages_`. -/

structure HaarRect where
  x : ℚ
  y : ℚ
  w : ℚ
  h : ℚ
  weight : ℚ
  deriving DecidableEq, Repr

structure HaarNode where
  tilted : ℚ
  rects : List HaarRect
  threshold : ℚ
  left : ℚ
  right : ℚ
  deriving DecidableEq, Repr

structure HaarStage where
  threshold : ℚ
  nodes : List HaarNode
  deriving DecidableEq, Repr

/-- Decode `rectsLength` rectangle records at the cursor; `none` if the
records would run past the end of the buffer. -/
def decodeRects (data : Array ℚ) : ℕ → ℕ → Option (List HaarRect × ℕ)
  | w, 0 => some ([], w)
  | w, k + 1 =>
    if w + 5 ≤ data.size then
      match decodeRects data (w + 5) k with
      | some (rs, w') =>
        some (⟨data.getD w 0, data.getD (w + 1) 0, data.getD (w + 2) 0, data.getD (w + 3) 0,
          data.getD (w + 4) 0⟩ :: rs, w')
      | none => none
    else none

/-- Decode `nodeLength` node records at the cursor. -/
def decodeNodes (data : Array ℚ) : ℕ → ℕ → Option (List HaarNode × ℕ)
  | w, 0 => some ([], w)
  | w, k + 1 =>
    if w + 2 ≤ data.size then
      match decodeRects data (w + 2) ((data.getD (w + 1) 0).ceil.toNat) with
      | some (rs, w2) =>
        if w2 + 3 ≤ data.size then
          match decodeNodes data (w2 + 3) k with
          | some (ns, w') =>
            some (⟨data.getD w 0, rs, data.getD w2 0, data.getD (w2 + 1) 0,
              data.getD (w2 + 2) 0⟩ :: ns, w')
          | none => none
        else none
      | none => none
    else none

/-- Decode the stage sequence from cursor position `w` to the exact end of the
buffer; `none` when a declared stage/node/rectangle count disagrees with the
actual length (the validation spec §7 demands). -/
def decodeStages (data : Array ℚ) : ℕ → ℕ → Option (List HaarStage)
  | 0, w => if w < data.size then none else some []
  | fuel + 1, w =>
    if w < data.size then
      if w + 2 ≤ data.size then
        match decodeNodes data (w + 2) ((data.getD (w + 1) 0).floor.toNat) with
        | some (ns, w') =>
          match decodeStages data fuel w' with
          | some sts => some (⟨data.getD w 0, ns⟩ :: sts)
          | none => none
        | none => none
      else none
    else some []

/-- Decode a whole cascade: `[minWidth, minHeight, stages...]`. -/
def decodeCascade (data : Array ℚ) : Option (ℚ × ℚ × List HaarStage) :=
  if 2 ≤ data.size then
    (decodeStages data data.size 2).map fun sts => (data.getD 0 0, data.getD 1 0, sts)
  else none

/-- Spec-side: a node's weighted rectangle sum. -/
def nodeSum (c : EvalCtx) (nd : HaarNode) : ℚ :=
  (nd.rects.map fun r => rectVal c nd.tilted r.x r.y r.w r.h r.weight).sum

/-- Spec-side: a stage's sum — each node contributes `leftValue` when its
weighted rectangle sum times `inverseArea` is strictly less than
`nodeThreshold * standardDeviation`, else `rightValue`. -/
def stageSum (c : EvalCtx) (invArea std : ℚ) (st : HaarStage) : ℚ :=
  (st.nodes.map fun nd =>
    if nodeSum c nd * invArea < nd.threshold * std then nd.left else nd.right).sum

/-- Spec-side stage evaluation: reject immediately (never touching later
stages) as soon as a stage's sum is strictly below its threshold; accept when
every stage passed. -/
def evalStagesSpec (c : EvalCtx) (invArea std : ℚ) : List HaarStage → Bool
  | [] => true
  | st :: rest =>
    if stageSum c invArea std st < st.threshold then false
    else evalStagesSpec c invArea std rest

/-! ## Multiscale window scanner (`ViolaJones.detect`)

The source builds the integral images from the pixels via the external
builder and then drives the scale/step loop.  The parameters bundle carries
the already-built tables. -/

structure DetectParams where
  width : ℕ
  height : ℕ
  initialScale : ℚ
  scaleFactor : ℚ
  stepSize : ℚ
  edgesDensity : ℚ
  data : Array ℚ
  integralImage : Array ℤ
  integralImageSquare : Array ℤ
  tiltedIntegralImage : Array ℤ
  integralImageSobel : Array ℤ
  sq : ℚ → ℚ

/-- `minWidth = data[0]`. -/
def minWidth (p : DetectParams) : ℚ := p.data.getD 0 0

/-- `minHeight = data[1]`. -/
def minHeight (p : DetectParams) : ℚ := p.data.getD 1 0

/-- `ViolaJones.isTriviallyExcluded`: the edge-density pruner.  Returns `true`
(skip) when the block's normalized Sobel-integral density is strictly below
`edgesDensity`. -/
def isTriviallyExcluded (edgesDensity : ℚ) (integralImageSobel : Array ℤ) (i j : ℤ)
    (width : ℕ) (blockWidth blockHeight : ℤ) : Bool :=
  let wbA := i * (width : ℤ) + j
  let wbB := wbA + blockWidth
  let wbD := wbA + blockHeight * (width : ℤ)
  let wbC := wbD + blockWidth
  let blockEdgesDensity :=
    ((readZ integralImageSobel wbA - readZ integralImageSobel wbB -
        readZ integralImageSobel wbD + readZ integralImageSobel wbC : ℤ) : ℚ) /
      ((blockWidth : ℚ) * (blockHeight : ℚ) * 255)
  if blockEdgesDensity < edgesDensity then true else false

/-- The positions visited by `for (i = 0; i < bound; i += step)`, fuel-indexed
(`bound.toNat` fuel suffices when `step ≥ 1`; for `step ≤ 0` the JS loop does
not terminate, which every claim excludes by hypothesis). -/
def scanPosAux (step bound : ℤ) : ℕ → ℤ → List ℤ
  | 0, _ => []
  | fuel + 1, i => if i < bound then i :: scanPosAux step bound fuel (i + step) else []

/-- The full position list of one loop. -/
def scanPos (step bound : ℤ) : List ℤ :=
  scanPosAux step bound bound.toNat 0

/-- One candidate window of the scan: top-left corner, block size, scale. -/
structure Window where
  y : ℤ
  x : ℤ
  blockWidth : ℤ
  blockHeight : ℤ
  scale : ℚ
  deriving DecidableEq, Repr

/-- The candidate windows of one scale iteration: the row loop
`i < height - blockHeight`, the column loop `j < width - blockWidth`, both on
the `step = (scale * stepSize + 0.5) | 0` grid. -/
def scanGridAt (p : DetectParams) (scale : ℚ) : List Window :=
  let blockWidth := toInt32 (scale * minWidth p)
  let blockHeight := toInt32 (scale * minHeight p)
  let step := toInt32 (scale * p.stepSize + 1/2)
  (scanPos step ((p.height : ℤ) - blockHeight)).flatMap fun i =>
    (scanPos step ((p.width : ℤ) - blockWidth)).map fun j =>
      ⟨i, j, blockWidth, blockHeight, scale⟩

/-- Whether the scaled block still fits in the image: the loop condition
`blockWidth < width && blockHeight < height`. -/
def fits (p : DetectParams) (s : ℚ) : Prop :=
  toInt32 (s * minWidth p) < (p.width : ℤ) ∧ toInt32 (s * minHeight p) < (p.height : ℤ)

instance (p : DetectParams) (s : ℚ) : Decidable (fits p s) := by
  unfold fits; infer_instance

/-- The scale loop `while (blockWidth < width && blockHeight < height)`,
starting from `scale = initialScale * scaleFactor` and multiplying by
`scaleFactor` after each iteration; fuel-indexed. -/
def scaleList (p : DetectParams) : ℕ → ℚ → List ℚ
  | 0, _ => []
  | fuel + 1, scale =>
    if fits p scale then scale :: scaleList p fuel (scale * p.scaleFactor)
    else []

/-- All candidate windows visited by `detect`'s nested loops. -/
def scanWindows (p : DetectParams) (fuel : ℕ) : List Window :=
  (scaleList p fuel (p.initialScale * p.scaleFactor)).flatMap (scanGridAt p)

/-- The guard in front of the evaluator: a window reaches `evalStages_` unless
`edgesDensity > 0` and the pruner excludes it. -/
def reachesEvaluator (p : DetectParams) (w : Window) : Bool :=
  !(decide (p.edgesDensity > 0) &&
    isTriviallyExcluded p.edgesDensity p.integralImageSobel w.y w.x p.width
      w.blockWidth w.blockHeight)

/-- The evaluator context of a window. -/
def windowCtx (p : DetectParams) (w : Window) : EvalCtx :=
  ⟨p.integralImage, p.integralImageSquare, p.tiltedIntegralImage, w.y, w.x, p.width,
    w.blockWidth, w.blockHeight, w.scale, p.sq⟩

/-- `evalStages_` applied to a window. -/
def accepts (p : DetectParams) (w : Window) : Bool :=
  evalStages_ p.data (windowCtx p w)

/-- The windows that reach the stage evaluator (pruner not triggered). -/
def evaluatedWindows (p : DetectParams) (fuel : ℕ) : List Window :=
  (scanWindows p fuel).filter (reachesEvaluator p)

/-- The raw rectangle recorded for an accepted window:
`{width: blockWidth, height: blockHeight, x: j, y: i, total: 0}`. -/
def toRect (w : Window) : Rect :=
  ⟨(w.x : ℚ), (w.y : ℚ), (w.blockWidth : ℚ), (w.blockHeight : ℚ), 0⟩

/-- The raw rectangles collected by the scanner: one `toRect` per window that
passes the pruner guard and the evaluator. -/
def detectRaw (p : DetectParams) (fuel : ℕ) : List Rect :=
  ((scanWindows p fuel).filter fun w => reachesEvaluator p w && accepts p w).map toRect

/-- `ViolaJones.detect`: the merger's output on the collected raw rectangles
(never the raw list). -/
def detect (p : DetectParams) (fuel : ℕ) : List Rect :=
  mergeRectangles_ (detectRaw p fuel)

/-- `p` with only the edge-density threshold replaced (for C7's statement). -/
def withDensity (p : DetectParams) (d : ℚ) : DetectParams :=
  ⟨p.width, p.height, p.initialScale, p.scaleFactor, p.stepSize, d, p.data,
    p.integralImage, p.integralImageSquare, p.tiltedIntegralImage,
    p.integralImageSobel, p.sq⟩

/-- The claim-side window of scale `s` at grid coordinates `(a, b)`, with the
block size and stride written as floors, as the spec states them. -/
def gridWindow (p : DetectParams) (s : ℚ) (a b : ℕ) : Window :=
  ⟨(a : ℤ) * ⌊s * p.stepSize + 1/2⌋, (b : ℤ) * ⌊s * p.stepSize + 1/2⌋,
    ⌊s * minWidth p⌋, ⌊s * minHeight p⌋, s⟩

/-- A concrete one-stage, one-node, one-rectangle cascade for witnesses. -/
def cascadeEx : Array ℚ :=
  #[20, 20, 1, 1, 0, 1, 0, 0, 2, 2, 1, 0, 5, 0]

/-- The decoded form of `cascadeEx`. -/
def cascadeExStages : List HaarStage :=
  [⟨1, [⟨0, [⟨0, 0, 2, 2, 1⟩], 0, 5, 0⟩]⟩]

/-- A concrete window context (all-zero 4×4 tables, identity `sq`). -/
def ctxEx : EvalCtx :=
  ⟨Array.mkArray 16 0, Array.mkArray 16 0, Array.mkArray 16 0, 0, 0, 4, 2, 2, 1, fun q => q⟩

/-- Concrete detector parameters with a tiny initial scale: the first scale
iterations have `blockWidth = blockHeight = 0` (2×2 image, stage-free cascade
`#[20, 20]`, `initialScale = 1/100`, `scaleFactor = 2`, `stepSize = 50`,
`edgesDensity = 0`). -/
def pEx0 : DetectParams :=
  ⟨2, 2, 1/100, 2, 50, 0, #[20, 20], Array.mkArray 4 0, Array.mkArray 4 0,
    Array.mkArray 4 0, Array.mkArray 4 0, fun q => q⟩

/-- Concrete well-behaved detector parameters (24×24 image, stage-free
cascade `#[20, 20]` so that every window is accepted, `initialScale = 1/2`,
`scaleFactor = 2`, `stepSize = 2`, `edgesDensity = 0`). -/
def pExOK : DetectParams :=
  ⟨24, 24, 1/2, 2, 2, 0, #[20, 20], Array.mkArray 576 0, Array.mkArray 576 0,
    Array.mkArray 576 0, Array.mkArray 576 0, fun q => q⟩

end Tracking

namespace Tracking

theorem intersectRect_iff (x0 y0 x1 y1 x2 y2 x3 y3 : ℚ) :
    intersectRect x0 y0 x1 y1 x2 y2 x3 y3 = true ↔
      (x2 ≤ x1 ∧ x0 ≤ x3 ∧ y2 ≤ y1 ∧ y0 ≤ y3) := by
  simp [intersectRect, not_or, not_lt]
  tauto

theorem interArea_eq (r1 r2 : Rect) :
    (max r1.x r2.x - min (r1.x + r1.width) (r2.x + r2.width)) *
        (max r1.y r2.y - min (r1.y + r1.height) (r2.y + r2.height)) =
      interArea r1 r2 := by
  unfold interArea; ring

/-- C2.  The merger unions the (ordered) pair `(i, j)` exactly under this
guard: the two bounding boxes intersect inclusively, and both
`overlap / (area1 * (area1 / area2)) ≥ 0.5` and
`overlap / (area2 * (area1 / area2)) ≥ 0.5`, where `overlap` is the
intersection area, `area1 = width1 * height1` and `area2 = width2 * height2`.
(`mergeCond` is the exact guard of the `disjointSet.union(i, j)` call in
`mergeRectangles_`.) -/
theorem mergeCond_iff (r1 r2 : Rect) (h1w : 0 < r1.width) (h1h : 0 < r1.height)
    (h2w : 0 < r2.width) (h2h : 0 < r2.height) :
    mergeCond r1 r2 = true ↔
      (boxesIntersect r1 r2 ∧
        interArea r1 r2 /
            ((r1.width * r1.height) * ((r1.width * r1.height) / (r2.width * r2.height))) ≥
          REGIONS_OVERLAP ∧
        interArea r1 r2 /
            ((r2.width * r2.height) * ((r1.width * r1.height) / (r2.width * r2.height))) ≥
          REGIONS_OVERLAP) := by
  rw [mergeCond]
  simp only [Bool.and_eq_true, decide_eq_true_eq, intersectRect_iff, interArea_eq]
  unfold boxesIntersect
  constructor
  · rintro ⟨⟨a, b, c, d⟩, e, f⟩
    exact ⟨⟨a, b, c, d⟩, e, f⟩
  · rintro ⟨⟨a, b, c, d⟩, e, f⟩
    exact ⟨⟨a, b, c, d⟩, e, f⟩

/-- The source rectangle loop computes exactly the sum of the decoded
rectangles' values. -/
lemma readRects_spec (data : Array ℚ) (c : EvalCtx) (tilted : ℚ) (k : ℕ) :
    ∀ (w : ℕ) (rs : List HaarRect) (w' : ℕ), decodeRects data w k = some (rs, w') →
      ∀ acc : ℚ, readRects data c tilted w k acc =
        (acc + (rs.map fun r => rectVal c tilted r.x r.y r.w r.h r.weight).sum, w') := by
  induction k with
  | zero =>
    intro w rs w' h acc
    simp only [decodeRects, Option.some_inj, Prod.mk.injEq] at h
    obtain ⟨rfl, rfl⟩ := h
    simp [readRects]
  | succ k ih =>
    intro w rs w' h acc
    rw [decodeRects] at h
    by_cases hsz : w + 5 ≤ data.size
    · rw [if_pos hsz] at h
      rcases hrec : decodeRects data (w + 5) k with _ | ⟨rs0, w2⟩ <;> rw [hrec] at h
      · exact absurd h (by simp)
      · simp only [Option.some_inj, Prod.mk.injEq] at h
        obtain ⟨rfl, rfl⟩ := h
        rw [readRects, ih _ _ _ hrec]
        simp [add_assoc]
    · rw [if_neg hsz] at h
      exact absurd h (by simp)

/-- The source node loop computes exactly the sum of the decoded nodes'
left/right contributions. -/
lemma readNodes_spec (data : Array ℚ) (c : EvalCtx) (invArea std : ℚ) (k : ℕ) :
    ∀ (w : ℕ) (ns : List HaarNode) (w' : ℕ), decodeNodes data w k = some (ns, w') →
      ∀ acc : ℚ, readNodes data c invArea std w k acc =
        (acc + (ns.map fun nd =>
          if nodeSum c nd * invArea < nd.threshold * std then nd.left else nd.right).sum, w') := by
  induction k with
  | zero =>
    intro w ns w' h acc
    simp only [decodeNodes, Option.some_inj, Prod.mk.injEq] at h
    obtain ⟨rfl, rfl⟩ := h
    simp [readNodes]
  | succ k ih =>
    intro w ns w' h acc
    rw [decodeNodes] at h
    by_cases hsz : w + 2 ≤ data.size
    · rw [if_pos hsz] at h
      rcases hrects : decodeRects data (w + 2) ((data.getD (w + 1) 0).ceil.toNat)
          with _ | ⟨rs, w2⟩ <;> rw [hrects] at h
      · exact absurd h (by simp)
      · dsimp only at h
        by_cases hsz3 : w2 + 3 ≤ data.size
        · rw [if_pos hsz3] at h
          rcases hrec : decodeNodes data (w2 + 3) k with _ | ⟨ns0, w3⟩ <;> rw [hrec] at h
          · exact absurd h (by simp)
          · simp only [Option.some_inj, Prod.mk.injEq] at h
            obtain ⟨rfl, rfl⟩ := h
            rw [readNodes]
            have hsum := readRects_spec data c (data.getD w 0)
              ((data.getD (w + 1) 0).ceil.toNat) (w + 2) rs w2 hrects 0
            rw [hsum, ih _ _ _ hrec]
            simp only [nodeSum, zero_add]
            simp [add_assoc]
        · rw [if_neg hsz3] at h
          exact absurd h (by simp)
    · rw [if_neg hsz] at h
      exact absurd h (by simp)

/-- The source stage loop agrees with the spec-side evaluation of the decoded
stages. -/
lemma stagesLoop_spec (data : Array ℚ) (c : EvalCtx) (invArea std : ℚ) (fuel : ℕ) :
    ∀ (w : ℕ) (sts : List HaarStage), decodeStages data fuel w = some sts →
      stagesLoop data c invArea std fuel w = evalStagesSpec c invArea std sts := by
  induction fuel with
  | zero =>
    intro w sts h
    rw [decodeStages] at h
    by_cases hw : w < data.size
    · rw [if_pos hw] at h; exact absurd h (by simp)
    · rw [if_neg hw] at h
      simp only [Option.some_inj] at h
      subst h
      rw [stagesLoop, evalStagesSpec]
  | succ fuel ih =>
    intro w sts h
    rw [decodeStages] at h
    rw [stagesLoop]
    by_cases hw : w < data.size
    · rw [if_pos hw] at h
      simp only [if_pos hw]
      by_cases hsz : w + 2 ≤ data.size
      · rw [if_pos hsz] at h
        rcases hnodes : decodeNodes data (w + 2) ((data.getD (w + 1) 0).floor.toNat)
            with _ | ⟨ns, w2⟩ <;> rw [hnodes] at h
        · exact absurd h (by simp)
        · dsimp only at h
          rcases hrec : decodeStages data fuel w2 with _ | sts0 <;> rw [hrec] at h
          · exact absurd h (by simp)
          · simp only [Option.some_inj] at h
            subst h
            have hsum := readNodes_spec data c invArea std
              ((data.getD (w + 1) 0).floor.toNat) (w + 2) ns w2 hnodes 0
            rw [hsum]
            rw [evalStagesSpec]
            simp only [stageSum, zero_add]
            by_cases hth : (ns.map fun nd =>
                if nodeSum c nd * invArea < nd.threshold * std then nd.left
                else nd.right).sum < data.getD w 0
            · rw [if_pos hth, if_pos hth]
            · rw [if_neg hth, if_neg hth]
              exact ih w2 sts0 hrec
      · rw [if_neg hsz] at h
        exact absurd h (by simp)
    · rw [if_neg hw] at h
      simp only [Option.some_inj] at h
      subst h
      simp only [if_neg hw]
      rw [evalStagesSpec]

/-- Spec-side evaluation accepts exactly when every stage's sum reaches its
threshold. -/
lemma evalStagesSpec_eq_true_iff (c : EvalCtx) (invArea std : ℚ) (sts : List HaarStage) :
    evalStagesSpec c invArea std sts = true ↔
      ∀ st ∈ sts, st.threshold ≤ stageSum c invArea std st := by
  induction sts with
  | nil => simp [evalStagesSpec]
  | cons st rest ih =>
    rw [evalStagesSpec]
    by_cases hth : stageSum c invArea std st < st.threshold
    · simp only [if_pos hth]
      constructor
      · intro h; exact absurd h (by simp)
      · intro h
        exact absurd (h st (List.mem_cons_self st rest)) (by simpa using hth)
    · simp only [if_neg hth, ih]
      constructor
      · intro h s hs
        rcases List.mem_cons.mp hs with rfl | hs
        · exact le_of_not_lt hth
        · exact h s hs
      · intro h s hs
        exact h s (List.mem_cons_of_mem _ hs)

/-- C1.  For every window, whenever the flat cascade data decodes to a stage
list, the source evaluator `evalStages_` equals the spec-side evaluation: the
standard deviation is `sq(variance)` when `variance > 0` and `1` otherwise,
each node contributes `leftValue` exactly when its weighted rectangle sum
times `inverseArea` is strictly below `nodeThreshold * standardDeviation`
(else `rightValue`), a stage whose accumulated sum is strictly below its
threshold rejects immediately without evaluating later stages, and the
evaluator returns `true` exactly when every stage's sum reaches its
threshold. -/
theorem evalStages_correct (data : Array ℚ) (c : EvalCtx) (minW minH : ℚ)
    (sts : List HaarStage) (h : decodeCascade data = some (minW, minH, sts)) :
    evalStages_ data c = evalStagesSpec c (inverseArea c) (standardDeviation c) sts ∧
      standardDeviation c =
        (if windowVariance c > 0 then c.sq (windowVariance c) else 1) ∧
      (evalStages_ data c = true ↔
        ∀ st ∈ sts, st.threshold ≤ stageSum c (inverseArea c) (standardDeviation c) st) := by
  rw [decodeCascade] at h
  by_cases hsz : 2 ≤ data.size
  · rw [if_pos hsz] at h
    rcases hdec : decodeStages data data.size 2 with _ | sts0 <;> rw [hdec] at h
    · exact absurd h (by simp)
    · simp only [Option.map_some', Option.some_inj, Prod.mk.injEq] at h
      obtain ⟨-, -, rfl⟩ := h
      have heq := stagesLoop_spec data c (inverseArea c) (standardDeviation c)
        data.size 2 sts0 hdec
      refine ⟨heq, rfl, ?_⟩
      rw [evalStages_, heq]
      exact evalStagesSpec_eq_true_iff c (inverseArea c) (standardDeviation c) sts0
  · rw [if_neg hsz] at h
    exact absurd h (by simp)

unseal Rat.mul Rat.add Rat.sub Rat.inv in
/-- Witness for `evalStages_correct` on the concrete cascade `cascadeEx`. -/
theorem evalStages_correct_witness :
    decodeCascade cascadeEx = some (20, 20, cascadeExStages) ∧
      (evalStages_ cascadeEx ctxEx =
          evalStagesSpec ctxEx (inverseArea ctxEx) (standardDeviation ctxEx) cascadeExStages ∧
        standardDeviation ctxEx =
          (if windowVariance ctxEx > 0 then ctxEx.sq (windowVariance ctxEx) else 1) ∧
        (evalStages_ cascadeEx ctxEx = true ↔
          ∀ st ∈ cascadeExStages,
            st.threshold ≤ stageSum ctxEx (inverseArea ctxEx) (standardDeviation ctxEx) st)) :=
  ⟨by decide, evalStages_correct cascadeEx ctxEx 20 20 cascadeExStages (by decide)⟩

unseal Rat.mul Rat.add Rat.sub Rat.inv in
/-- C3 evidence.  `#[20, 20, 5, 1, 0, 0]` declares one stage with one node,
but the node's `threshold/left/right` tail lies past the end of the buffer:
the decoder (which checks exactly the consumed-length validation the spec
mandates) rejects it, yet `evalStages_` — which performs no such validation
and has no error path at all — still returns an ordinary boolean for it.  (In
JS the past-the-end reads yield `undefined`/`NaN` and the stage silently
passes; the embedding reads defaults.  Either way no `MalformedCascadeError`
is raised — the class does not exist anywhere in the code.) -/
theorem evalStages_no_length_validation :
    decodeCascade #[20, 20, 5, 1, 0, 0] = none ∧
      evalStages_ #[20, 20, 5, 1, 0, 0] ctxEx = false := by
  decide

unseal Rat.mul Rat.add Rat.sub Rat.inv in
/-- C6 counterexample.  On `{x:0,y:0,w:10,h:10}` and `{x:5,y:5,w:10,h:10}` the
merger does NOT return exactly one rectangle: the overlap area is 25 against
areas of 100, so both ratios are 1/4 < 1/2 and the pair is never unioned. -/
theorem mergeScenarioB_not_one :
    (mergeRectangles_ [⟨0, 0, 10, 10, 0⟩, ⟨5, 5, 10, 10, 0⟩]).length ≠ 1 := by
  decide

unseal Rat.mul Rat.add Rat.sub Rat.inv in
/-- C6 amended.  On `{x:0,y:0,w:10,h:10}` and `{x:5,y:5,w:10,h:10}` the merger
returns the two rectangles unmerged, each with `total = 1` and unchanged
coordinates (the overlap ratio is 1/4 < 1/2 in both directions). -/
theorem mergeScenarioB_eq :
    mergeRectangles_ [⟨0, 0, 10, 10, 0⟩, ⟨5, 5, 10, 10, 0⟩] =
      [⟨0, 0, 10, 10, 1⟩, ⟨5, 5, 10, 10, 1⟩] := by
  decide

unseal Rat.mul Rat.add Rat.sub Rat.inv in
/-- Witness for `mergeCond_iff` at two concrete overlapping rectangles. -/
theorem mergeCond_iff_witness :
    (0:ℚ) < 10 ∧
      (mergeCond ⟨0, 0, 10, 10, 0⟩ ⟨1, 1, 10, 10, 0⟩ = true ↔
        (boxesIntersect ⟨0, 0, 10, 10, 0⟩ ⟨1, 1, 10, 10, 0⟩ ∧
          interArea ⟨0, 0, 10, 10, 0⟩ ⟨1, 1, 10, 10, 0⟩ /
              (((10:ℚ) * 10) * (((10:ℚ) * 10) / ((10:ℚ) * 10))) ≥ REGIONS_OVERLAP ∧
          interArea ⟨0, 0, 10, 10, 0⟩ ⟨1, 1, 10, 10, 0⟩ /
              (((10:ℚ) * 10) * (((10:ℚ) * 10) / ((10:ℚ) * 10))) ≥ REGIONS_OVERLAP)) :=
  ⟨by decide,
    mergeCond_iff ⟨0, 0, 10, 10, 0⟩ ⟨1, 1, 10, 10, 0⟩
      (by decide) (by decide) (by decide) (by decide)⟩

/-- The pruner fires exactly when the normalized block edge density is
strictly below the threshold. -/
lemma isTriviallyExcluded_iff (ed : ℚ) (sobel : Array ℤ) (i j : ℤ) (width : ℕ)
    (bw bh : ℤ) :
    isTriviallyExcluded ed sobel i j width bw bh = true ↔
      ((readZ sobel (i * (width : ℤ) + j) - readZ sobel (i * (width : ℤ) + j + bw) -
          readZ sobel (i * (width : ℤ) + j + bh * (width : ℤ)) +
          readZ sobel (i * (width : ℤ) + j + bh * (width : ℤ) + bw) : ℤ) : ℚ) /
        ((bw : ℚ) * (bh : ℚ) * 255) < ed := by
  unfold isTriviallyExcluded
  dsimp only
  split_ifs with h
  · simpa using h
  · simpa using h

/-- C8.  The pruner skips a block exactly when
`(edgeSum[A] - edgeSum[B] - edgeSum[D] + edgeSum[C]) / (blockWidth * blockHeight * 255)`
is strictly below the configured threshold; and with `edgesDensity = 0` the
pruner guard never fires, so every candidate window on the scan grid reaches
the stage evaluator. -/
theorem pruner_spec :
    (∀ (ed : ℚ) (sobel : Array ℤ) (i j : ℤ) (width : ℕ) (bw bh : ℤ),
      isTriviallyExcluded ed sobel i j width bw bh = true ↔
        ((readZ sobel (i * (width : ℤ) + j) - readZ sobel (i * (width : ℤ) + j + bw) -
            readZ sobel (i * (width : ℤ) + j + bh * (width : ℤ)) +
            readZ sobel (i * (width : ℤ) + j + bh * (width : ℤ) + bw) : ℤ) : ℚ) /
          ((bw : ℚ) * (bh : ℚ) * 255) < ed) ∧
    (∀ (p : DetectParams) (fuel : ℕ), p.edgesDensity = 0 →
      evaluatedWindows p fuel = scanWindows p fuel) := by
  refine ⟨isTriviallyExcluded_iff, ?_⟩
  intro p fuel h
  unfold evaluatedWindows
  apply List.filter_eq_self.mpr
  intro w _
  simp [reachesEvaluator, h]

unseal Rat.mul Rat.add Rat.sub Rat.inv in
/-- Witness for `pruner_spec` at concrete parameters with zero density. -/
theorem pruner_spec_witness :
    evaluatedWindows pEx0 2 = scanWindows pEx0 2 :=
  pruner_spec.2 pEx0 2 (by decide)

/-- Raising the density threshold can only turn `reachesEvaluator` off. -/
lemma reaches_antitone (p : DetectParams) (d1 d2 : ℚ) (h : d1 ≤ d2) (w : Window)
    (h2 : reachesEvaluator (withDensity p d2) w = true) :
    reachesEvaluator (withDensity p d1) w = true := by
  unfold reachesEvaluator withDensity at h2 ⊢
  dsimp only at h2 ⊢
  rw [Bool.not_eq_true'] at h2 ⊢
  rcases Bool.and_eq_false_iff.mp h2 with hd | he
  · have hd2 : ¬ d2 > 0 := of_decide_eq_false hd
    exact Bool.and_eq_false_iff.mpr (Or.inl (decide_eq_false (by simp at hd2 ⊢; linarith)))
  · refine Bool.and_eq_false_iff.mpr (Or.inr ?_)
    have hx : ¬ isTriviallyExcluded d2 p.integralImageSobel w.y w.x p.width
        w.blockWidth w.blockHeight = true := by
      rw [he]; simp
    rw [isTriviallyExcluded_iff] at hx
    have : ¬ isTriviallyExcluded d1 p.integralImageSobel w.y w.x p.width
        w.blockWidth w.blockHeight = true := by
      rw [isTriviallyExcluded_iff]
      intro hc
      exact hx (lt_of_lt_of_le hc h)
    exact Bool.not_eq_true _ ▸ this

/-- The scale list ignores the density threshold. -/
lemma scaleList_withDensity (p : DetectParams) (d : ℚ) : ∀ (fuel : ℕ) (s0 : ℚ),
    scaleList (withDensity p d) fuel s0 = scaleList p fuel s0
  | 0, _ => rfl
  | fuel + 1, s0 => by
    show (if fits p s0 then s0 :: scaleList (withDensity p d) fuel (s0 * p.scaleFactor)
      else []) = _
    rw [scaleList]
    by_cases hc : fits p s0
    · rw [if_pos hc, if_pos hc, scaleList_withDensity p d fuel]
    · rw [if_neg hc, if_neg hc]

/-- The scanned window grid ignores the density threshold. -/
lemma scanWindows_withDensity (p : DetectParams) (d : ℚ) (fuel : ℕ) :
    scanWindows (withDensity p d) fuel = scanWindows p fuel := by
  unfold scanWindows
  rw [show (withDensity p d).initialScale * (withDensity p d).scaleFactor =
    p.initialScale * p.scaleFactor from rfl]
  rw [scaleList_withDensity]
  rfl

/-- C7.  With everything else fixed, raising `edgesDensity` never increases
the number of candidate windows that reach the stage evaluator. -/
theorem evaluated_monotone (p : DetectParams) (fuel : ℕ) (d1 d2 : ℚ) (h : d1 ≤ d2) :
    (evaluatedWindows (withDensity p d2) fuel).length ≤
      (evaluatedWindows (withDensity p d1) fuel).length := by
  unfold evaluatedWindows
  rw [scanWindows_withDensity, scanWindows_withDensity]
  simp only [← List.countP_eq_length_filter]
  exact List.countP_mono_left fun w _ hw => reaches_antitone p d1 d2 h w hw

unseal Rat.mul Rat.add Rat.sub Rat.inv in
/-- Witness for `evaluated_monotone` at concrete parameters and densities. -/
theorem evaluated_monotone_witness :
    (0 : ℚ) ≤ 1/2 ∧
      (evaluatedWindows (withDensity pEx0 (1/2)) 2).length ≤
        (evaluatedWindows (withDensity pEx0 0) 2).length :=
  ⟨by decide, evaluated_monotone pEx0 2 0 (1/2) (by decide)⟩


/-- `toInt32` is `Int.floor` on nonnegative inputs. -/
lemma toInt32_of_nonneg (q : ℚ) (h : 0 ≤ q) : toInt32 q = ⌊q⌋ := by
  unfold toInt32
  rw [if_neg (not_lt.mpr h)]

/-- `toInt32` is monotone from a nonnegative input. -/
lemma toInt32_le_toInt32 (a b : ℚ) (ha : 0 ≤ a) (hab : a ≤ b) :
    toInt32 a ≤ toInt32 b := by
  rw [toInt32_of_nonneg a ha, toInt32_of_nonneg b (le_trans ha hab)]
  exact Int.floor_le_floor hab

/-- Membership in the stride loop's position list: exactly the multiples of
`step` below `bound` (for a positive `step`, with enough fuel). -/
lemma scanPosAux_mem (step bound : ℤ) (hstep : 0 < step) :
    ∀ (fuel : ℕ) (start m : ℤ), (bound - start).toNat ≤ fuel →
      (m ∈ scanPosAux step bound fuel start ↔
        ∃ a : ℕ, m = start + (a : ℤ) * step ∧ m < bound) := by
  intro fuel
  induction fuel with
  | zero =>
    intro start m hf
    rw [scanPosAux]
    simp only [List.not_mem_nil, false_iff]
    rintro ⟨a, rfl, hm⟩
    have ha : 0 ≤ (a : ℤ) * step := mul_nonneg (Int.natCast_nonneg a) (le_of_lt hstep)
    omega
  | succ fuel ih =>
    intro start m hf
    rw [scanPosAux]
    by_cases hi : start < bound
    · rw [if_pos hi]
      have hrec := ih (start + step) m (by omega)
      simp only [List.mem_cons, hrec]
      constructor
      · rintro (rfl | ⟨a, rfl, hm⟩)
        · exact ⟨0, by push_cast; ring, hi⟩
        · exact ⟨a + 1, by push_cast; ring, hm⟩
      · rintro ⟨a, rfl, hm⟩
        cases a with
        | zero => left; push_cast; ring
        | succ a => right; exact ⟨a, by push_cast; ring, hm⟩
    · rw [if_neg hi]
      simp only [List.not_mem_nil, false_iff]
      rintro ⟨a, rfl, hm⟩
      have ha : 0 ≤ (a : ℤ) * step := mul_nonneg (Int.natCast_nonneg a) (le_of_lt hstep)
      omega

/-- Membership in one full position loop. -/
lemma scanPos_mem (step bound : ℤ) (hstep : 0 < step) (m : ℤ) :
    m ∈ scanPos step bound ↔ ∃ a : ℕ, m = (a : ℤ) * step ∧ m < bound := by
  unfold scanPos
  rw [scanPosAux_mem step bound hstep bound.toNat 0 m (by omega)]
  simp

/-- Membership in the scale loop's list: the geometric scales, as long as
every earlier scale's block still fits. -/
lemma scaleList_mem (p : DetectParams) :
    ∀ (fuel : ℕ) (s0 s : ℚ), s ∈ scaleList p fuel s0 ↔
      ∃ t < fuel, s = s0 * p.scaleFactor ^ t ∧
        ∀ t' ≤ t, fits p (s0 * p.scaleFactor ^ t') := by
  intro fuel
  induction fuel with
  | zero =>
    intro s0 s
    rw [scaleList]
    simp
  | succ fuel ih =>
    intro s0 s
    rw [scaleList]
    by_cases hf : fits p s0
    · rw [if_pos hf]
      simp only [List.mem_cons, ih (s0 * p.scaleFactor) s]
      constructor
      · rintro (rfl | ⟨t, ht, rfl, hfits⟩)
        · refine ⟨0, Nat.succ_pos fuel, by simp, ?_⟩
          intro t' ht'
          interval_cases t'
          simpa using hf
        · refine ⟨t + 1, by omega, by rw [pow_succ]; ring, ?_⟩
          intro t' ht'
          cases t' with
          | zero => simpa using hf
          | succ u =>
            have hu := hfits u (by omega)
            rwa [show s0 * p.scaleFactor * p.scaleFactor ^ u =
              s0 * p.scaleFactor ^ (u + 1) from by rw [pow_succ]; ring] at hu
      · rintro ⟨t, ht, rfl, hfits⟩
        cases t with
        | zero => left; simp
        | succ u =>
          right
          refine ⟨u, by omega, by rw [pow_succ]; ring, ?_⟩
          intro t' ht'
          have := hfits (t' + 1) (by omega)
          rwa [show s0 * p.scaleFactor ^ (t' + 1) =
            s0 * p.scaleFactor * p.scaleFactor ^ t' from by rw [pow_succ]; ring] at this
    · rw [if_neg hf]
      simp only [List.not_mem_nil, false_iff]
      rintro ⟨t, ht, rfl, hfits⟩
      have := hfits 0 (Nat.zero_le t)
      simp only [pow_zero, mul_one] at this
      exact hf this


/-- Membership in one scale's window grid (positive stride). -/
lemma scanGridAt_mem (p : DetectParams) (s : ℚ)
    (hstep : 0 < toInt32 (s * p.stepSize + 1/2)) (w : Window) :
    w ∈ scanGridAt p s ↔ ∃ a b : ℕ,
      (a : ℤ) * toInt32 (s * p.stepSize + 1/2) < (p.height : ℤ) - toInt32 (s * minHeight p) ∧
      (b : ℤ) * toInt32 (s * p.stepSize + 1/2) < (p.width : ℤ) - toInt32 (s * minWidth p) ∧
      w = ⟨(a : ℤ) * toInt32 (s * p.stepSize + 1/2), (b : ℤ) * toInt32 (s * p.stepSize + 1/2),
        toInt32 (s * minWidth p), toInt32 (s * minHeight p), s⟩ := by
  unfold scanGridAt
  dsimp only
  rw [List.mem_flatMap]
  constructor
  · rintro ⟨i, hi, hw⟩
    rw [List.mem_map] at hw
    obtain ⟨j, hj, rfl⟩ := hw
    rw [scanPos_mem _ _ hstep] at hi hj
    obtain ⟨a, rfl, hia⟩ := hi
    obtain ⟨b, rfl, hjb⟩ := hj
    exact ⟨a, b, by omega, by omega, rfl⟩
  · rintro ⟨a, b, ha, hb, rfl⟩
    refine ⟨(a : ℤ) * toInt32 (s * p.stepSize + 1/2), ?_, ?_⟩
    · rw [scanPos_mem _ _ hstep]
      exact ⟨a, rfl, by omega⟩
    · rw [List.mem_map]
      refine ⟨(b : ℤ) * toInt32 (s * p.stepSize + 1/2), ?_, rfl⟩
      rw [scanPos_mem _ _ hstep]
      exact ⟨b, rfl, by omega⟩

/-- Raw-rectangle membership through the filter/map structure. -/
lemma detectRaw_mem (p : DetectParams) (fuel : ℕ) (r : Rect) :
    r ∈ detectRaw p fuel ↔ ∃ w ∈ scanWindows p fuel,
      (reachesEvaluator p w && accepts p w) = true ∧ r = toRect w := by
  unfold detectRaw
  rw [List.mem_map]
  constructor
  · rintro ⟨w, hw, rfl⟩
    rw [List.mem_filter] at hw
    exact ⟨w, hw.1, hw.2, rfl⟩
  · rintro ⟨w, hw, hc, rfl⟩
    exact ⟨w, List.mem_filter.mpr ⟨hw, hc⟩, rfl⟩

/-- C4.  `detect` starts at `scale = initialScale * scaleFactor`, uses block
size `floor(scale * cascadeMin)` and stride `floor(scale * stepSize + 0.5)`,
scans rows in `[0, height - blockHeight)` and columns in
`[0, width - blockWidth)` on the stride grid, multiplies the scale by
`scaleFactor` between iterations, runs a scale iteration exactly as long as
every scale so far kept the block inside the image, and returns the merger's
output on the collected raw rectangles, never the raw list. -/
theorem detect_scan_struct (p : DetectParams) (fuel : ℕ)
    (h0 : 0 ≤ p.initialScale) (h1 : 0 ≤ p.scaleFactor)
    (hmw : 0 ≤ minWidth p) (hmh : 0 ≤ minHeight p) (hss : 0 ≤ p.stepSize)
    (hstep : ∀ s ∈ scaleList p fuel (p.initialScale * p.scaleFactor),
      0 < toInt32 (s * p.stepSize + 1/2)) :
    detect p fuel = mergeRectangles_ (detectRaw p fuel) ∧
      (∀ s, s ∈ scaleList p fuel (p.initialScale * p.scaleFactor) ↔
        ∃ t < fuel, s = p.initialScale * p.scaleFactor * p.scaleFactor ^ t ∧
          ∀ t' ≤ t,
            ⌊p.initialScale * p.scaleFactor * p.scaleFactor ^ t' * minWidth p⌋ <
                (p.width : ℤ) ∧
              ⌊p.initialScale * p.scaleFactor * p.scaleFactor ^ t' * minHeight p⌋ <
                (p.height : ℤ)) ∧
      (∀ r, r ∈ detectRaw p fuel ↔
        ∃ s ∈ scaleList p fuel (p.initialScale * p.scaleFactor), ∃ a b : ℕ,
          (a : ℤ) * ⌊s * p.stepSize + 1/2⌋ < (p.height : ℤ) - ⌊s * minHeight p⌋ ∧
          (b : ℤ) * ⌊s * p.stepSize + 1/2⌋ < (p.width : ℤ) - ⌊s * minWidth p⌋ ∧
          reachesEvaluator p (gridWindow p s a b) = true ∧
          accepts p (gridWindow p s a b) = true ∧
          r = toRect (gridWindow p s a b)) := by
  have hs00 : 0 ≤ p.initialScale * p.scaleFactor := mul_nonneg h0 h1
  have hsnn : ∀ s, s ∈ scaleList p fuel (p.initialScale * p.scaleFactor) → 0 ≤ s := by
    intro s hs
    obtain ⟨t, -, rfl, -⟩ := (scaleList_mem p fuel _ s).mp hs
    exact mul_nonneg hs00 (pow_nonneg h1 t)
  have e1 : ∀ s, 0 ≤ s → toInt32 (s * p.stepSize + 1/2) = ⌊s * p.stepSize + 1/2⌋ := by
    intro s hs
    exact toInt32_of_nonneg _ (add_nonneg (mul_nonneg hs hss) (by norm_num))
  have e2 : ∀ s, 0 ≤ s → toInt32 (s * minWidth p) = ⌊s * minWidth p⌋ := fun s hs =>
    toInt32_of_nonneg _ (mul_nonneg hs hmw)
  have e3 : ∀ s, 0 ≤ s → toInt32 (s * minHeight p) = ⌊s * minHeight p⌋ := fun s hs =>
    toInt32_of_nonneg _ (mul_nonneg hs hmh)
  refine ⟨rfl, ?_, ?_⟩
  · intro s
    rw [scaleList_mem]
    constructor
    · rintro ⟨t, ht, rfl, hfits⟩
      refine ⟨t, ht, rfl, ?_⟩
      intro t' ht'
      have hfit := hfits t' ht'
      have hx : (0:ℚ) ≤ p.initialScale * p.scaleFactor * p.scaleFactor ^ t' :=
        mul_nonneg hs00 (pow_nonneg h1 t')
      unfold fits at hfit
      rwa [e2 _ hx, e3 _ hx] at hfit
    · rintro ⟨t, ht, rfl, hfits⟩
      refine ⟨t, ht, rfl, ?_⟩
      intro t' ht'
      have hfit := hfits t' ht'
      have hx : (0:ℚ) ≤ p.initialScale * p.scaleFactor * p.scaleFactor ^ t' :=
        mul_nonneg hs00 (pow_nonneg h1 t')
      unfold fits
      rwa [e2 _ hx, e3 _ hx]
  · intro r
    rw [detectRaw_mem]
    unfold scanWindows
    constructor
    · rintro ⟨w, hw, hc, rfl⟩
      rw [List.mem_flatMap] at hw
      obtain ⟨s, hs, hwg⟩ := hw
      have hsp := hsnn s hs
      rw [scanGridAt_mem p s (hstep s hs)] at hwg
      obtain ⟨a, b, ha, hb, rfl⟩ := hwg
      have hwEq : (⟨(a : ℤ) * toInt32 (s * p.stepSize + 1/2),
          (b : ℤ) * toInt32 (s * p.stepSize + 1/2), toInt32 (s * minWidth p),
          toInt32 (s * minHeight p), s⟩ : Window) = gridWindow p s a b := by
        unfold gridWindow
        rw [e1 _ hsp, e2 _ hsp, e3 _ hsp]
      rw [hwEq] at hc ⊢
      rw [Bool.and_eq_true] at hc
      refine ⟨s, hs, a, b, ?_, ?_, hc.1, hc.2, rfl⟩
      · rw [← e1 _ hsp, ← e3 _ hsp]; exact ha
      · rw [← e1 _ hsp, ← e2 _ hsp]; exact hb
    · rintro ⟨s, hs, a, b, ha, hb, hre, hac, rfl⟩
      have hsp := hsnn s hs
      refine ⟨gridWindow p s a b, ?_, ?_, rfl⟩
      · rw [List.mem_flatMap]
        refine ⟨s, hs, ?_⟩
        rw [scanGridAt_mem p s (hstep s hs)]
        refine ⟨a, b, ?_, ?_, ?_⟩
        · rw [e1 _ hsp, e3 _ hsp]; exact ha
        · rw [e1 _ hsp, e2 _ hsp]; exact hb
        · unfold gridWindow
          rw [e1 _ hsp, e2 _ hsp, e3 _ hsp]
      · rw [Bool.and_eq_true]
        exact ⟨hre, hac⟩


unseal Rat.mul Rat.add Rat.sub Rat.inv in
/-- Witness for `detect_scan_struct` at concrete parameters. -/
theorem detect_scan_struct_witness :
    (0 : ℚ) ≤ pExOK.initialScale ∧
      (detect pExOK 1 = mergeRectangles_ (detectRaw pExOK 1) ∧
        (∀ s, s ∈ scaleList pExOK 1 (pExOK.initialScale * pExOK.scaleFactor) ↔
          ∃ t < 1, s = pExOK.initialScale * pExOK.scaleFactor * pExOK.scaleFactor ^ t ∧
            ∀ t' ≤ t,
              ⌊pExOK.initialScale * pExOK.scaleFactor * pExOK.scaleFactor ^ t' *
                  minWidth pExOK⌋ < (pExOK.width : ℤ) ∧
                ⌊pExOK.initialScale * pExOK.scaleFactor * pExOK.scaleFactor ^ t' *
                  minHeight pExOK⌋ < (pExOK.height : ℤ)) ∧
        (∀ r, r ∈ detectRaw pExOK 1 ↔
          ∃ s ∈ scaleList pExOK 1 (pExOK.initialScale * pExOK.scaleFactor), ∃ a b : ℕ,
            (a : ℤ) * ⌊s * pExOK.stepSize + 1/2⌋ <
                (pExOK.height : ℤ) - ⌊s * minHeight pExOK⌋ ∧
            (b : ℤ) * ⌊s * pExOK.stepSize + 1/2⌋ <
                (pExOK.width : ℤ) - ⌊s * minWidth pExOK⌋ ∧
            reachesEvaluator pExOK (gridWindow pExOK s a b) = true ∧
            accepts pExOK (gridWindow pExOK s a b) = true ∧
            r = toRect (gridWindow pExOK s a b))) :=
  ⟨by decide, detect_scan_struct pExOK 1 (by decide) (by decide) (by decide) (by decide)
    (by decide) (by decide)⟩

unseal Rat.mul Rat.add Rat.sub Rat.inv in
/-- C5 counterexample.  With `pEx0` (a legal call: positive image, tiny
`initialScale`), the scanner collects the zero-area raw rectangle
`{x:0, y:0, w:0, h:0}` and `detect` hands the raw list — containing it —
straight to the merger. -/
theorem detectRaw_zero_area :
    (⟨0, 0, 0, 0, 0⟩ : Rect) ∈ detectRaw pEx0 4 ∧
      detect pEx0 4 = mergeRectangles_ (detectRaw pEx0 4) :=
  ⟨by decide, rfl⟩

/-- C5 amended.  If the first scale iteration's block is already at least
1×1 (and `scaleFactor ≥ 1` with nonnegative `initialScale`, `minWidth`,
`minHeight`, so blocks never shrink), then every raw rectangle collected by
the scanner has strictly positive width and height. -/
theorem detectRaw_pos_dims (p : DetectParams) (fuel : ℕ)
    (hsf : 1 ≤ p.scaleFactor) (hs0 : 0 ≤ p.initialScale)
    (hmw : 0 ≤ minWidth p) (hmh : 0 ≤ minHeight p)
    (hbw : 1 ≤ toInt32 (p.initialScale * p.scaleFactor * minWidth p))
    (hbh : 1 ≤ toInt32 (p.initialScale * p.scaleFactor * minHeight p)) :
    ∀ r ∈ detectRaw p fuel, 0 < r.width ∧ 0 < r.height := by
  intro r hr
  rw [detectRaw_mem] at hr
  obtain ⟨w, hw, -, rfl⟩ := hr
  unfold scanWindows at hw
  rw [List.mem_flatMap] at hw
  obtain ⟨s, hs, hwg⟩ := hw
  have hfields : w.blockWidth = toInt32 (s * minWidth p) ∧
      w.blockHeight = toInt32 (s * minHeight p) := by
    unfold scanGridAt at hwg
    dsimp only at hwg
    rw [List.mem_flatMap] at hwg
    obtain ⟨i, -, hj⟩ := hwg
    rw [List.mem_map] at hj
    obtain ⟨j, -, rfl⟩ := hj
    exact ⟨rfl, rfl⟩
  obtain ⟨t, -, rfl, -⟩ := (scaleList_mem p fuel _ s).mp hs
  have hs00 : 0 ≤ p.initialScale * p.scaleFactor :=
    mul_nonneg hs0 (le_trans zero_le_one hsf)
  have hpow : 1 ≤ p.scaleFactor ^ t := one_le_pow₀ hsf
  have hmono : p.initialScale * p.scaleFactor ≤
      p.initialScale * p.scaleFactor * p.scaleFactor ^ t :=
    le_mul_of_one_le_right hs00 hpow
  have h1 : (1 : ℤ) ≤ toInt32 (p.initialScale * p.scaleFactor * p.scaleFactor ^ t *
      minWidth p) :=
    le_trans hbw (toInt32_le_toInt32 _ _ (mul_nonneg hs00 hmw)
      (mul_le_mul_of_nonneg_right hmono hmw))
  have h2 : (1 : ℤ) ≤ toInt32 (p.initialScale * p.scaleFactor * p.scaleFactor ^ t *
      minHeight p) :=
    le_trans hbh (toInt32_le_toInt32 _ _ (mul_nonneg hs00 hmh)
      (mul_le_mul_of_nonneg_right hmono hmh))
  unfold toRect
  dsimp only
  rw [hfields.1, hfields.2]
  constructor
  · exact_mod_cast lt_of_lt_of_le zero_lt_one h1
  · exact_mod_cast lt_of_lt_of_le zero_lt_one h2

unseal Rat.mul Rat.add Rat.sub Rat.inv in
/-- Witness for `detectRaw_pos_dims` at concrete parameters. -/
theorem detectRaw_pos_dims_witness :
    (1 : ℚ) ≤ pExOK.scaleFactor ∧
      ∀ r ∈ detectRaw pExOK 3, 0 < r.width ∧ 0 < r.height :=
  ⟨by decide, detectRaw_pos_dims pExOK 3 (by decide) (by decide) (by decide) (by decide)
    (by decide) (by decide)⟩


namespace DisjointSet

/-- Writing entry `a` changes exactly that entry's parent step. -/
lemma step_setD (p : Array ℕ) (a v x : ℕ) :
    step (p.setD a v) x = if x = a ∧ a < p.size then v else step p x := by
  unfold step Array.setD
  split
  case isTrue h =>
    by_cases hx : x = a
    · subst hx
      rw [Array.getD_eq_get?, Array.getElem?_set_eq p ⟨x, h⟩ v]
      simp [h]
    · simp only [hx, false_and, if_false]
      rw [Array.getD_eq_get?, Array.getD_eq_get?,
        Array.getElem?_set_ne p ⟨a, h⟩ v (by simpa using Ne.symm hx)]
  case isFalse h =>
    simp [h]

/-- Parent steps stay in range. -/
lemma iterate_lt {n : ℕ} {p : Array ℕ} (hInv : Inv n p) {x : ℕ} (hx : x < n) :
    ∀ k, (step p)^[k] x < n := by
  intro k
  induction k with
  | zero => simpa
  | succ k ih =>
    rw [Function.iterate_succ_apply']
    exact hInv.2.1 _ ih

/-- On a well-formed table every element reaches a root in fewer than `n`
steps (pigeonhole on the `n + 1` first iterates). -/
lemma exists_root_step {n : ℕ} {p : Array ℕ} (hInv : Inv n p) {x : ℕ} (hx : x < n) :
    ∃ k, k < n ∧ isRoot p ((step p)^[k] x) := by
  have key : ∀ k1 k2, k1 < k2 → k2 ≤ n → (step p)^[k1] x = (step p)^[k2] x →
      ∃ k, k < n ∧ isRoot p ((step p)^[k] x) := by
    intro k1 k2 hlt hle heq
    refine ⟨k1, lt_of_lt_of_le hlt hle, ?_⟩
    apply hInv.2.2 _ (k2 - k1) (by omega)
    rw [← Function.iterate_add_apply, show k2 - k1 + k1 = k2 from by omega, ← heq]
  have hmaps : ∀ k ∈ Finset.range (n + 1), (step p)^[k] x ∈ Finset.range n := by
    intro k _
    rw [Finset.mem_range]
    exact iterate_lt hInv hx k
  obtain ⟨k1, hk1, k2, hk2, hne, heq⟩ :=
    Finset.exists_ne_map_eq_of_card_lt_of_maps_to
      (by simp) hmaps
  rw [Finset.mem_range] at hk1 hk2
  rcases lt_or_gt_of_ne hne with h | h
  · exact key k1 k2 h (by omega) heq
  · exact key k2 k1 h (by omega) heq.symm

/-- The canonical representative is a root. -/
lemma rootN_isRoot {n : ℕ} {p : Array ℕ} (hInv : Inv n p) {x : ℕ} (hx : x < n) :
    isRoot p (rootN p x) := by
  obtain ⟨k, hk, hr⟩ := exists_root_step hInv hx
  unfold rootN
  rw [hInv.1, show n = (n - k) + k from by omega, Function.iterate_add_apply,
    Function.iterate_fixed hr]
  exact hr

/-- The canonical representative stays in range. -/
lemma rootN_lt {n : ℕ} {p : Array ℕ} (hInv : Inv n p) {x : ℕ} (hx : x < n) :
    rootN p x < n := by
  unfold rootN
  exact iterate_lt hInv hx p.size

/-- A root is its own representative. -/
lemma rootN_of_isRoot {p : Array ℕ} {x : ℕ} (h : isRoot p x) : rootN p x = x :=
  Function.iterate_fixed h p.size

end DisjointSet


namespace DisjointSet

/-- Following one parent edge does not change the representative. -/
lemma rootN_step {n : ℕ} {p : Array ℕ} (hInv : Inv n p) {x : ℕ} (hx : x < n) :
    rootN p (step p x) = rootN p x := by
  unfold rootN
  rw [← Function.iterate_succ_apply, Function.iterate_succ_apply']
  exact rootN_isRoot hInv hx

/-- Iterating parent edges does not change the representative. -/
lemma rootN_iterate {n : ℕ} {p : Array ℕ} (hInv : Inv n p) {x : ℕ} (hx : x < n) :
    ∀ k, rootN p ((step p)^[k] x) = rootN p x := by
  intro k
  induction k with
  | zero => rfl
  | succ k ih =>
    rw [Function.iterate_succ_apply', rootN_step hInv (iterate_lt hInv hx k), ih]

/-- Iterates agree with the un-written table while the path avoids the
written entry (hypothesis on the original table's path). -/
lemma iterEq_of_p {p : Array ℕ} {a r : ℕ} (ha : a < p.size) :
    ∀ (m x : ℕ), (∀ l, l < m → (step p)^[l] x ≠ a) →
      (step (p.setD a r))^[m] x = (step p)^[m] x := by
  intro m
  induction m with
  | zero => intro x _; rfl
  | succ m ih =>
    intro x hl
    rw [Function.iterate_succ_apply', Function.iterate_succ_apply',
      ih x fun l hlm => hl l (by omega), step_setD]
    rw [if_neg]
    rintro ⟨hc, -⟩
    exact hl m (by omega) hc

/-- Iterates agree with the un-written table while the path avoids the
written entry (hypothesis on the new table's path). -/
lemma iterEq_of_pn {p : Array ℕ} {a r : ℕ} (ha : a < p.size) :
    ∀ (m x : ℕ), (∀ l, l < m → (step (p.setD a r))^[l] x ≠ a) →
      (step (p.setD a r))^[m] x = (step p)^[m] x := by
  intro m
  induction m with
  | zero => intro x _; rfl
  | succ m ih =>
    intro x hl
    have hm := ih x fun l hlm => hl l (by omega)
    rw [Function.iterate_succ_apply', Function.iterate_succ_apply', hm, step_setD]
    rw [if_neg]
    rintro ⟨hc, -⟩
    exact hl m (by omega) (by rw [hm]; exact hc)

/-- Writing a root `r` into any entry `a` preserves the invariant and
redirects exactly the elements whose parent chain passes through `a`. -/
lemma setD_root_gen {n : ℕ} {p : Array ℕ} (hInv : Inv n p) {a r : ℕ}
    (ha : a < n) (hr : r < n) (hroot : isRoot p r) :
    Inv n (p.setD a r) ∧
      ∀ x, x < n →
        ((∃ k, (step p)^[k] x = a) → rootN (p.setD a r) x = r) ∧
        ((∀ k, (step p)^[k] x ≠ a) → rootN (p.setD a r) x = rootN p x) := by
  have hap : a < p.size := hInv.1 ▸ ha
  have hsize : (p.setD a r).size = p.size := Array.size_setD p a r
  have hstepa : step (p.setD a r) a = r := by
    rw [step_setD, if_pos ⟨rfl, hap⟩]
  have hstep_ne : ∀ y, y ≠ a → step (p.setD a r) y = step p y := by
    intro y hy
    rw [step_setD, if_neg]
    rintro ⟨hc, -⟩
    exact hy hc
  have hfixr : step (p.setD a r) r = r := by
    by_cases hra : r = a
    · subst hra
      exact hstepa
    · rw [hstep_ne r hra]
      exact hroot
  have hita : ∀ l, 1 ≤ l → (step (p.setD a r))^[l] a = r := by
    intro l hl
    rw [show l = (l - 1) + 1 from by omega, Function.iterate_succ_apply, hstepa,
      Function.iterate_fixed hfixr]
  have hacy : Acyclic (p.setD a r) := by
    intro x k hk hcyc
    by_cases hpath : ∃ m, m < k ∧ (step (p.setD a r))^[m] x = a
    · obtain ⟨m, hm, hma⟩ := hpath
      have hxa : (step (p.setD a r))^[k - m] a = x := by
        have h1 : (step (p.setD a r))^[(k - m) + m] x = x := by
          rw [show k - m + m = k from by omega]
          exact hcyc
        rw [Function.iterate_add_apply, hma] at h1
        exact h1
      by_cases hmk : k - m = 0
      · omega
      · rw [hita (k - m) (by omega)] at hxa
        rw [← hxa, hfixr, hxa]
    · push_neg at hpath
      have heq : ∀ l, l ≤ k → (step (p.setD a r))^[l] x = (step p)^[l] x := by
        intro l hl
        exact iterEq_of_pn hap l x fun l' hl' => hpath l' (by omega)
      have hx0 : x ≠ a := by
        have := hpath 0 hk
        simpa using this
      have hold : step p x = x := by
        apply hInv.2.2 x k hk
        rw [← heq k le_rfl]
        exact hcyc
      rw [hstep_ne x hx0]
      exact hold
  have hInv' : Inv n (p.setD a r) := by
    refine ⟨hsize.trans hInv.1, ?_, hacy⟩
    intro x hx
    by_cases hxa : x = a
    · subst hxa
      rw [hstepa]
      exact hr
    · rw [hstep_ne x hxa]
      exact hInv.2.1 x hx
  refine ⟨hInv', ?_⟩
  intro x hx
  constructor
  · intro hex
    have hk0 := Nat.find_spec hex
    set k0 := Nat.find hex with hk0def
    have hmin : ∀ m, m < k0 → (step p)^[m] x ≠ a := fun m hm => Nat.find_min hex hm
    have hk0n : k0 < n := by
      obtain ⟨kr, hkr, hkroot⟩ := exists_root_step hInv hx
      by_contra hge
      have hk0kr : kr < k0 := by omega
      apply hmin kr hk0kr
      have : (step p)^[k0] x = (step p)^[kr] x := by
        rw [show k0 = (k0 - kr) + kr from by omega, Function.iterate_add_apply,
          Function.iterate_fixed hkroot]
      rw [← this]
      exact hk0
    have hsame : (step (p.setD a r))^[k0] x = a := by
      rw [iterEq_of_p hap k0 x hmin]
      exact hk0
    unfold rootN
    rw [hsize, hInv.1, show n = (n - k0) + k0 from by omega, Function.iterate_add_apply,
      hsame]
    exact hita (n - k0) (by omega)
  · intro hex
    unfold rootN
    rw [hsize]
    exact iterEq_of_p hap p.size x fun l _ => hex l

end DisjointSet

namespace DisjointSet

/-- `findD` with enough fuel returns the canonical representative, keeps the
invariant, and (path compression notwithstanding) changes no element's
representative. -/
lemma findD_spec {n : ℕ} {p : Array ℕ} (hInv : Inv n p) :
    ∀ (k i : ℕ), i < n → isRoot p ((step p)^[k] i) → ∀ fuel, k < fuel →
      (findD p fuel i).1 = rootN p i ∧ Inv n (findD p fuel i).2 ∧
      ∀ x, x < n → rootN (findD p fuel i).2 x = rootN p x := by
  intro k
  induction k with
  | zero =>
    intro i hi hroot fuel hfuel
    obtain ⟨f, rfl⟩ : ∃ f, fuel = f + 1 := ⟨fuel - 1, by omega⟩
    have hri : step p i = i := by simpa [isRoot] using hroot
    rw [findD]
    dsimp only
    rw [if_pos hri]
    exact ⟨(rootN_of_isRoot hri).symm, hInv, fun x _ => rfl⟩
  | succ k ih =>
    intro i hi hroot fuel hfuel
    obtain ⟨f, rfl⟩ : ∃ f, fuel = f + 1 := ⟨fuel - 1, by omega⟩
    rw [findD]
    dsimp only
    by_cases hri : step p i = i
    · rw [if_pos hri]
      exact ⟨(rootN_of_isRoot hri).symm, hInv, fun x _ => rfl⟩
    · rw [if_neg hri]
      dsimp only
      have hstep_lt : step p i < n := hInv.2.1 i hi
      have hroot' : isRoot p ((step p)^[k] (step p i)) := by
        rw [← Function.iterate_succ_apply]
        exact hroot
      obtain ⟨ih1, ih2, ih3⟩ := ih (step p i) hstep_lt hroot' f (by omega)
      have hr_eq : (findD p f (step p i)).1 = rootN p i := by
        rw [ih1, rootN_step hInv hi]
      have hrlt : (findD p f (step p i)).1 < n := by
        rw [hr_eq]
        exact rootN_lt hInv hi
      have hrootq : isRoot (findD p f (step p i)).2 (findD p f (step p i)).1 := by
        have h1 : rootN (findD p f (step p i)).2 (findD p f (step p i)).1 =
            (findD p f (step p i)).1 := by
          rw [ih3 _ hrlt, hr_eq, rootN_of_isRoot (rootN_isRoot hInv hi)]
        have h2 := rootN_isRoot ih2 hrlt
        rwa [h1] at h2
      obtain ⟨hinv3, hredir⟩ := setD_root_gen ih2 hi hrlt hrootq
      refine ⟨hr_eq, hinv3, ?_⟩
      intro x hx
      obtain ⟨hyes, hno⟩ := hredir x hx
      by_cases hex : ∃ l, (step (findD p f (step p i)).2)^[l] x = i
      · rw [hyes hex]
        obtain ⟨l, hl⟩ := hex
        have h1 : rootN (findD p f (step p i)).2 i = rootN (findD p f (step p i)).2 x := by
          have h0 := rootN_iterate ih2 hx l
          rw [hl] at h0
          exact h0
        rw [hr_eq]
        rw [← ih3 i hi, ← ih3 x hx, h1]
      · push_neg at hex
        rw [hno hex]
        exact ih3 x hx

/-- `find` (fuel `p.size`) computes the representative, keeps the invariant
and preserves every element's representative. -/
lemma find_spec {n : ℕ} {p : Array ℕ} (hInv : Inv n p) {i : ℕ} (hi : i < n) :
    (find p i).1 = rootN p i ∧ Inv n (find p i).2 ∧
      ∀ x, x < n → rootN (find p i).2 x = rootN p x := by
  obtain ⟨k, hk, hroot⟩ := exists_root_step hInv hi
  have hsz : p.size = n := hInv.1
  exact findD_spec hInv k i hi hroot p.size (by omega)

/-- `union` keeps the invariant and merges exactly the two classes:
afterwards `x`'s representative is `j`'s old one when `x` was in `i`'s class,
and unchanged otherwise. -/
lemma union_spec {n : ℕ} {p : Array ℕ} (hInv : Inv n p) {i j : ℕ}
    (hi : i < n) (hj : j < n) :
    Inv n (union p i j) ∧
      ∀ x, x < n → rootN (union p i j) x =
        if rootN p x = rootN p i then rootN p j else rootN p x := by
  obtain ⟨hf1, hf2, hf3⟩ := find_spec hInv hi
  obtain ⟨hg1, hg2, hg3⟩ := find_spec hf2 hj
  have hrilt : (find p i).1 < n := by
    rw [hf1]
    exact rootN_lt hInv hi
  have hgj : (find (find p i).2 j).1 = rootN p j := by
    rw [hg1, hf3 j hj]
  have hrjlt : (find (find p i).2 j).1 < n := by
    rw [hgj]
    exact rootN_lt hInv hj
  have hroots2 : ∀ x, x < n → rootN (find (find p i).2 j).2 x = rootN p x := by
    intro x hx
    rw [hg3 x hx, hf3 x hx]
  have hrootj : isRoot (find (find p i).2 j).2 (find (find p i).2 j).1 := by
    have h1 : rootN (find (find p i).2 j).2 (find (find p i).2 j).1 =
        (find (find p i).2 j).1 := by
      rw [hroots2 _ hrjlt, hgj, rootN_of_isRoot (rootN_isRoot hInv hj)]
    have h2 := rootN_isRoot hg2 hrjlt
    rwa [h1] at h2
  obtain ⟨hinv3, hredir⟩ := setD_root_gen hg2 hrilt hrjlt hrootj
  constructor
  · exact hinv3
  intro x hx
  obtain ⟨hyes, hno⟩ := hredir x hx
  have hU : rootN (union p i j) x =
      rootN ((find (find p i).2 j).2.setD (find p i).1 (find (find p i).2 j).1) x := rfl
  by_cases hcase : rootN p x = rootN p i
  · rw [if_pos hcase, hU, hyes ⟨(find (find p i).2 j).2.size, ?_⟩, hgj]
    show rootN (find (find p i).2 j).2 x = (find p i).1
    rw [hroots2 x hx, hcase, ← hf1]
  · rw [if_neg hcase, hU, hno ?_, hroots2 x hx]
    intro l hl
    apply hcase
    have h1 : rootN (find (find p i).2 j).2 ((step (find (find p i).2 j).2)^[l] x) =
        rootN (find (find p i).2 j).2 x := rootN_iterate hg2 hx l
    rw [hl] at h1
    have h2 : rootN (find (find p i).2 j).2 (find p i).1 = (find p i).1 := by
      rw [hroots2 _ hrilt, hf1, rootN_of_isRoot (rootN_isRoot hInv hi)]
    rw [h2] at h1
    rw [← hroots2 x hx, ← h1, hf1]

end DisjointSet


namespace DisjointSet

/-- In the fresh table every element is its own parent. -/
lemma step_create (n x : ℕ) : step (create n) x = x := by
  unfold step create
  by_cases hx : x < n
  · simp [Array.getD_eq_get?, Array.getElem?_lt, hx, Array.getElem_range]
  · rw [Array.getD_eq_get?, Array.getElem?_ge]
    · rfl
    · rw [Array.size_range]
      omega

/-- The fresh table satisfies the invariant. -/
lemma inv_create (n : ℕ) : Inv n (create n) := by
  refine ⟨Array.size_range, ?_, ?_⟩
  · intro x hx
    rw [step_create]
    exact hx
  · intro x k _ _
    rw [step_create]

/-- In the fresh table every element is its own representative. -/
lemma rootN_create (n x : ℕ) : rootN (create n) x = x :=
  Function.iterate_fixed (step_create n x) _

/-- Lifting a relation inclusion into the equivalence closure. -/
lemma eqvGen_lift {r s : ℕ → ℕ → Prop} (h : ∀ x y, r x y → Relation.EqvGen s x y) :
    ∀ x y, Relation.EqvGen r x y → Relation.EqvGen s x y := by
  intro x y hxy
  induction hxy with
  | rel a b hab => exact h a b hab
  | refl a => exact Relation.EqvGen.refl a
  | symm a b _ ih => exact Relation.EqvGen.symm a b ih
  | trans a b c _ _ ih1 ih2 => exact Relation.EqvGen.trans a b c ih1 ih2

/-- The partition after a sequence of unions, over any well-formed starting
state: two elements share a representative exactly when they are joined by
the equivalence closure of the union pairs together with the starting
partition. -/
lemma applyUnions_root {n : ℕ} :
    ∀ (ps : List (ℕ × ℕ)) (p : Array ℕ), Inv n p →
      (∀ pr ∈ ps, pr.1 < n ∧ pr.2 < n) →
      Inv n (applyUnions ps p) ∧
      ∀ i j, i < n → j < n →
        (rootN (applyUnions ps p) i = rootN (applyUnions ps p) j ↔
          Relation.EqvGen
            (fun a b => (a, b) ∈ ps ∨ (a < n ∧ b < n ∧ rootN p a = rootN p b)) i j) := by
  intro ps
  induction ps with
  | nil =>
    intro p hInv _
    refine ⟨hInv, ?_⟩
    intro i j hi hj
    constructor
    · intro h
      exact Relation.EqvGen.rel i j (Or.inr ⟨hi, hj, h⟩)
    · intro h
      clear hi hj
      induction h with
      | rel a b hab =>
        rcases hab with hab | ⟨-, -, hab⟩
        · simp at hab
        · exact hab
      | refl a => rfl
      | symm a b _ ih => exact ih.symm
      | trans a b c _ _ ih1 ih2 => exact ih1.trans ih2
  | cons hd tl ih =>
    intro p hInv hps
    obtain ⟨ha, hb⟩ := hps hd (List.mem_cons_self hd tl)
    obtain ⟨hu_inv, hu_root⟩ := union_spec hInv ha hb
    have hps' : ∀ pr ∈ tl, pr.1 < n ∧ pr.2 < n := fun pr hpr =>
      hps pr (List.mem_cons_of_mem hd hpr)
    obtain ⟨hInvF, hIff⟩ := ih (union p hd.1 hd.2) hu_inv hps'
    have happ : applyUnions (hd :: tl) p = applyUnions tl (union p hd.1 hd.2) := rfl
    constructor
    · rw [happ]
      exact hInvF
    intro i j hi hj
    rw [happ, hIff i j hi hj]
    constructor
    · apply eqvGen_lift
      intro x y hxy
      rcases hxy with hmem | ⟨hx, hy, hroots⟩
      · exact Relation.EqvGen.rel x y (Or.inl (List.mem_cons_of_mem hd hmem))
      · rw [hu_root x hx, hu_root y hy] at hroots
        by_cases hcx : rootN p x = rootN p hd.1 <;>
          by_cases hcy : rootN p y = rootN p hd.1
        · exact Relation.EqvGen.rel x y (Or.inr ⟨hx, hy, hcx.trans hcy.symm⟩)
        · rw [if_pos hcx, if_neg hcy] at hroots
          refine Relation.EqvGen.trans x hd.1 y
            (Relation.EqvGen.rel x hd.1 (Or.inr ⟨hx, ha, hcx⟩)) ?_
          refine Relation.EqvGen.trans hd.1 hd.2 y
            (Relation.EqvGen.rel hd.1 hd.2 (Or.inl (by simp))) ?_
          exact Relation.EqvGen.rel hd.2 y (Or.inr ⟨hb, hy, hroots⟩)
        · rw [if_neg hcx, if_pos hcy] at hroots
          refine Relation.EqvGen.trans x hd.2 y
            (Relation.EqvGen.rel x hd.2 (Or.inr ⟨hx, hb, hroots⟩)) ?_
          refine Relation.EqvGen.trans hd.2 hd.1 y
            (Relation.EqvGen.symm hd.1 hd.2
              (Relation.EqvGen.rel hd.1 hd.2 (Or.inl (by simp)))) ?_
          exact Relation.EqvGen.rel hd.1 y (Or.inr ⟨ha, hy, hcy.symm⟩)
        · rw [if_neg hcx, if_neg hcy] at hroots
          exact Relation.EqvGen.rel x y (Or.inr ⟨hx, hy, hroots⟩)
    · apply eqvGen_lift
      intro x y hxy
      rcases hxy with hmem | ⟨hx, hy, hroots⟩
      · rcases List.mem_cons.mp hmem with heq | hmem'
        · have hx1 : x = hd.1 := congrArg Prod.fst heq
          have hy1 : y = hd.2 := congrArg Prod.snd heq
          subst hx1
          subst hy1
          have h1 : rootN (union p hd.1 hd.2) hd.1 = rootN (union p hd.1 hd.2) hd.2 := by
            rw [hu_root hd.1 ha, hu_root hd.2 hb, if_pos rfl]
            by_cases hc : rootN p hd.2 = rootN p hd.1
            · rw [if_pos hc]
            · rw [if_neg hc]
          exact Relation.EqvGen.rel hd.1 hd.2 (Or.inr ⟨ha, hb, h1⟩)
        · exact Relation.EqvGen.rel x y (Or.inl hmem')
      · have h1 : rootN (union p hd.1 hd.2) x = rootN (union p hd.1 hd.2) y := by
          rw [hu_root x hx, hu_root y hy, hroots]
        exact Relation.EqvGen.rel x y (Or.inr ⟨hx, hy, h1⟩)

end DisjointSet


namespace DisjointSet

/-- C9.  For a `DisjointSet` of length `n` and any finite sequence of
`union(i, j)` calls with indices below `n`, afterwards `find(i) == find(j)`
holds exactly when `i` and `j` are connected by the reflexive, symmetric,
transitive closure of the unioned pairs. -/
theorem unionFind_find_iff (n : ℕ) (ps : List (ℕ × ℕ))
    (hps : ∀ pr ∈ ps, pr.1 < n ∧ pr.2 < n) (i j : ℕ) (hi : i < n) (hj : j < n) :
    ((find (applyUnions ps (create n)) i).1 = (find (applyUnions ps (create n)) j).1 ↔
      Relation.EqvGen (fun a b => (a, b) ∈ ps) i j) := by
  obtain ⟨hInvF, hIff⟩ := applyUnions_root ps (create n) (inv_create n) hps
  obtain ⟨hfi, -, -⟩ := find_spec hInvF hi
  obtain ⟨hfj, -, -⟩ := find_spec hInvF hj
  rw [hfi, hfj, hIff i j hi hj]
  constructor
  · apply eqvGen_lift
    intro x y hxy
    rcases hxy with hmem | ⟨-, -, hroots⟩
    · exact Relation.EqvGen.rel x y hmem
    · rw [rootN_create, rootN_create] at hroots
      subst hroots
      exact Relation.EqvGen.refl x
  · apply eqvGen_lift
    intro x y hxy
    exact Relation.EqvGen.rel x y (Or.inl hxy)

/-- Witness for `unionFind_find_iff`: after `union(0, 1)` on three elements,
`find 0 = find 1`, and indeed `(0, 1)` is in the closure. -/
theorem unionFind_find_iff_witness :
    ((find (applyUnions [(0, 1)] (create 3)) 0).1 =
        (find (applyUnions [(0, 1)] (create 3)) 1).1 ↔
      Relation.EqvGen (fun a b => (a, b) ∈ [((0 : ℕ), (1 : ℕ))]) 0 1) :=
  unionFind_find_iff 3 [(0, 1)] (by decide) 0 1 (by decide) (by decide)

/-- Every reachable parent table is well-formed. -/
lemma reachable_inv {n : ℕ} {p : Array ℕ} (h : Reachable n p) : Inv n p := by
  induction h with
  | base => exact inv_create n
  | unionStep p i j _ hi hj ih => exact (union_spec ih hi hj).1
  | findStep p i _ hi ih => exact (find_spec ih hi).2.1

/-- C10.  On every reachable state, `find` is observationally pure for the
partition: any number of (path-compressing) `find` calls on any in-range
indices never changes whether two elements share a representative. -/
theorem find_observationally_pure (n : ℕ) (p : Array ℕ) (hp : Reachable n p)
    (ks : List ℕ) (hks : ∀ k ∈ ks, k < n) (i j : ℕ) (hi : i < n) (hj : j < n) :
    ((find (applyFinds ks p) i).1 = (find (applyFinds ks p) j).1 ↔
      (find p i).1 = (find p j).1) := by
  have key : ∀ (ks : List ℕ) (p : Array ℕ), Inv n p → (∀ k ∈ ks, k < n) →
      Inv n (applyFinds ks p) ∧ ∀ x, x < n → rootN (applyFinds ks p) x = rootN p x := by
    intro ks
    induction ks with
    | nil => exact fun p h _ => ⟨h, fun x _ => rfl⟩
    | cons k tl ihk =>
      intro p h hks
      obtain ⟨-, hInv2, hpres⟩ := find_spec h (hks k (List.mem_cons_self k tl))
      obtain ⟨hI, hP⟩ := ihk (find p k).2 hInv2 fun k' hk' =>
        hks k' (List.mem_cons_of_mem k hk')
      refine ⟨hI, ?_⟩
      intro x hx
      rw [show applyFinds (k :: tl) p = applyFinds tl (find p k).2 from rfl,
        hP x hx, hpres x hx]
  obtain ⟨hIF, hPF⟩ := key ks p (reachable_inv hp) hks
  obtain ⟨h1, -, -⟩ := find_spec hIF hi
  obtain ⟨h2, -, -⟩ := find_spec hIF hj
  obtain ⟨h3, -, -⟩ := find_spec (reachable_inv hp) hi
  obtain ⟨h4, -, -⟩ := find_spec (reachable_inv hp) hj
  rw [h1, h2, h3, h4, hPF i hi, hPF j hj]

/-- Witness for `find_observationally_pure`: a `find` on the fresh 2-element
set changes no representative comparison. -/
theorem find_observationally_pure_witness :
    ((find (applyFinds [0] (create 2)) 0).1 = (find (applyFinds [0] (create 2)) 1).1 ↔
      (find (create 2) 0).1 = (find (create 2) 1).1) :=
  find_observationally_pure 2 (create 2) Reachable.base [0] (by decide) 0 1
    (by decide) (by decide)

end DisjointSet


end Tracking
